import Mathlib

/-!
Verification development for the `tktts` text-to-speech pipeline
(`src/main.rs`).  The segmenter (`split_text`, with its helpers
`sanitize_text` and the punctuation regex), the dispatcher/reassembler
(`process_tts`, lines 188-257), the per-chunk response handling
(`request_tts_chunk`, lines 135-151) and the dry-run URL builder
(`generate_tts_url`, lines 154-164) are embedded as pure Lean functions
on `List Char` (strings) and `List Nat` (byte buffers).
-/

namespace Tktts

/-- UTF-8 byte length of a character sequence; embeds Rust `str::len()`
(`chunk.len()`, `word.len()` in `split_text`). -/
def utf8Len (s : List Char) : Nat := (s.map Char.utf8Size).sum

/-- The Unicode White_Space property, which is what Rust
`char::is_whitespace` (used by `str::split_whitespace`) tests. -/
def isWs (c : Char) : Bool :=
  c = ' ' || c = '\t' || c = '\n' || c = '\r' ||
  c = Char.ofNat 0x0B || c = Char.ofNat 0x0C ||
  c = Char.ofNat 0x85 || c = Char.ofNat 0xA0 ||
  c = Char.ofNat 0x1680 ||
  (0x2000 ≤ c.toNat && c.toNat ≤ 0x200A) ||
  c = Char.ofNat 0x2028 || c = Char.ofNat 0x2029 ||
  c = Char.ofNat 0x202F || c = Char.ofNat 0x205F ||
  c = Char.ofNat 0x3000

/-- Negation of the whitespace test, used for filtering. -/
def nonWs (c : Char) : Bool := !(isWs c)

/-- A segment is whitespace-free (a single indivisible token). -/
def wsFree (s : List Char) : Bool := s.all nonWs

/-- The boundary character class of the splitting regex
`.*?[.,!?:;\-—…(){}<>\[\]\n]|.+` in `split_text` (line 46).
The braces are U+007B and U+007D. -/
def isBoundary (c : Char) : Bool :=
  c = '.' || c = ',' || c = '!' || c = '?' || c = ':' || c = ';' ||
  c = '-' || c = Char.ofNat 0x2014 || c = Char.ofNat 0x2026 ||
  c = '(' || c = ')' || c = Char.ofNat 0x7B || c = Char.ofNat 0x7D ||
  c = '<' || c = '>' || c = '[' || c = ']' || c = '\n'

/-- Accumulator pass behind `splitUnits`; `acc` holds the reversed
characters of the unit currently being scanned. -/
def unitsAux : List Char → List Char → List (List Char)
  | [], acc => if acc.isEmpty then [] else [acc.reverse]
  | c :: cs, acc =>
    if isBoundary c then (acc.reverse ++ [c]) :: unitsAux cs []
    else unitsAux cs (c :: acc)

/-- Embeds `punctuation_regex.find_iter(text)` (lines 46-52): with the
leftmost-first semantics of the `regex` crate, each match of
`.*?[class]|.+` is the shortest prefix of the remaining text up to and
including the first boundary character, or, when no boundary character
remains, the whole remaining text.  (`.` does not match `\n`, but `\n`
is itself in the class, so the lazy prefix never needs to cross one.)
The resulting matches tile the input exactly. -/
def splitUnits (t : List Char) : List (List Char) := unitsAux t []

/-- Accumulator pass behind `splitWs`; `acc` holds the reversed
characters of the word currently being scanned. -/
def wordsAux : List Char → List Char → List (List Char)
  | [], acc => if acc.isEmpty then [] else [acc.reverse]
  | c :: cs, acc =>
    if isWs c then
      if acc.isEmpty then wordsAux cs [] else acc.reverse :: wordsAux cs []
    else wordsAux cs (c :: acc)

/-- Embeds Rust `str::split_whitespace` (line 59): the maximal
whitespace-free runs of the input, in order, skipping empty runs. -/
def splitWs (t : List Char) : List (List Char) := wordsAux t []

/-- The mutable state of the `split_text` loop: `merged_chunks`,
`current_chunk`, and the separately tracked `current_byte_length`. -/
structure SplitState where
  merged : List (List Char)
  current : List Char
  currentLen : Nat

/-- One iteration of the inner word loop of `split_text`
(lines 60-82): flush-and-restart when the word (plus a joining space)
does not fit, otherwise append with a single `' '` separator (or start
the accumulator when it is empty). -/
def pushWord (limit : Nat) (st : SplitState) (w : List Char) : SplitState :=
  if st.currentLen + utf8Len w + 1 > limit then
    { merged := st.merged ++ (if st.current.isEmpty then [] else [st.current]),
      current := w, currentLen := utf8Len w }
  else if st.current.isEmpty then
    { st with current := w, currentLen := utf8Len w }
  else
    { st with
      current := st.current ++ [' '] ++ w,
      currentLen := st.currentLen + utf8Len w + 1 }

/-- One iteration of the outer chunk loop of `split_text`
(lines 54-99): a unit over the byte limit is re-split at whitespace and
fed to the word loop; otherwise flush-and-restart when it does not fit,
else append verbatim. -/
def pushUnit (limit : Nat) (st : SplitState) (u : List Char) : SplitState :=
  if utf8Len u > limit then
    (splitWs u).foldl (pushWord limit) st
  else if st.currentLen + utf8Len u > limit then
    { merged := st.merged ++ (if st.current.isEmpty then [] else [st.current]),
      current := u, currentLen := utf8Len u }
  else
    { st with
      current := st.current ++ u,
      currentLen := st.currentLen + utf8Len u }

/-- Embeds `split_text` (lines 40-110): fold the natural units through
the accumulator and flush a non-empty trailing accumulator
(lines 101-107). -/
def split_text (t : List Char) (limit : Nat) : List (List Char) :=
  let st := (splitUnits t).foldl (pushUnit limit) ⟨[], [], 0⟩
  st.merged ++ (if st.current.isEmpty then [] else [st.current])

/-- `BYTE_LIMIT` (line 29). -/
def BYTE_LIMIT : Nat := 300

/-- The characters committed so far by the `split_text` loop: the
flushed chunks followed by the live accumulator. -/
def outFlush (st : SplitState) : List Char := st.merged.flatten ++ st.current

/-- A single-character replacement: embeds one `str::replace` call with
a one-character pattern. -/
def replaceChar (pat : Char) (rep : List Char) (s : List Char) : List Char :=
  s.flatMap (fun c => if c = pat then rep else [c])

/-- Embeds `sanitize_text` (lines 31-38): the six chained `replace`
calls, applied in source order. -/
def sanitize_text (s : List Char) : List Char :=
  replaceChar 'ß' "ss".toList
    (replaceChar 'ü' "ue".toList
      (replaceChar 'ö' "oe".toList
        (replaceChar 'ä' "ae".toList
          (replaceChar '&' "and".toList
            (replaceChar '+' "plus".toList s)))))

/-- Value of a base64 alphabet character (standard alphabet). -/
def b64Val (c : Char) : Option Nat :=
  if 'A' ≤ c ∧ c ≤ 'Z' then some (c.toNat - 65)
  else if 'a' ≤ c ∧ c ≤ 'z' then some (c.toNat - 97 + 26)
  else if '0' ≤ c ∧ c ≤ '9' then some (c.toNat - 48 + 52)
  else if c = '+' then some 62
  else if c = '/' then some 63
  else none

/-- Embeds `base64::engine::general_purpose::STANDARD.decode`
(line 251): strict standard-alphabet base64 with canonical padding
required, padding admitted only at the very end of the input, and
non-zero trailing bits rejected. -/
def base64Decode : List Char → Option (List Nat)
  | [] => some []
  | c1 :: c2 :: c3 :: c4 :: rest =>
    if c3 = '=' then
      if c4 = '=' ∧ rest = [] then
        match b64Val c1, b64Val c2 with
        | some v1, some v2 =>
          if v2 % 16 = 0 then some [v1 * 4 + v2 / 16] else none
        | _, _ => none
      else none
    else if c4 = '=' then
      if rest = [] then
        match b64Val c1, b64Val c2, b64Val c3 with
        | some v1, some v2, some v3 =>
          if v3 % 4 = 0 then
            some [v1 * 4 + v2 / 16, (v2 % 16) * 16 + v3 / 4]
          else none
        | _, _, _ => none
      else none
    else
      match b64Val c1, b64Val c2, b64Val c3, b64Val c4 with
      | some v1, some v2, some v3, some v4 =>
        match base64Decode rest with
        | some bs =>
          some ([v1 * 4 + v2 / 16, (v2 % 16) * 16 + v3 / 4,
                 (v3 % 4) * 64 + v4] ++ bs)
        | none => none
      | _, _, _, _ => none
  | _ => none

/-- The terminal errors `process_tts` can report after dispatch:
`partialFailure` is the string error of line 241
("Some audio chunks failed to generate"), `decodeFailure` is a base64
decode error propagated by the `?` on line 251. -/
inductive TtsError where
  | partialFailure
  | decodeFailure
deriving DecidableEq

/-- Embeds the reassembly tail of `process_tts` (lines 239-251): if any
slot of `audio_chunks` is `None`, fail; otherwise join the base64
strings of all chunks in slot order and decode the concatenation once. -/
def assemble (results : List (Option (List Char))) : Except TtsError (List Nat) :=
  if results.any (fun r => r.isNone) then Except.error TtsError.partialFailure
  else
    match base64Decode ((results.filterMap id).flatten) with
    | some bytes => Except.ok bytes
    | none => Except.error TtsError.decodeFailure

/-- Embeds the collection loop of `process_tts` (lines 227-237): each
completed task delivers `(index, data)` and the loop writes
`audio_chunks[index] = data` into the pre-sized `vec![None; n]`,
in completion order. -/
def collectResults (n : Nat) (completions : List (Nat × Option (List Char))) :
    List (Option (List Char)) :=
  completions.foldl (fun acc p => acc.set p.1 p.2) (List.replicate n none)

/-- The completion list of an all-success run delivered in ascending
index order: task `i` returns `(i, Some data_i)`. -/
def enumSome (ps : List (List Char)) : List (Nat × Option (List Char)) :=
  (List.range ps.length).map (fun i => (i, ps[i]?))

/-- Collection followed by reassembly: the dispatcher tail of
`process_tts` as a function of the completion order. -/
def processResults (n : Nat) (completions : List (Nat × Option (List Char))) :
    Except TtsError (List Nat) :=
  assemble (collectResults n completions)

/-- The fields of the remote JSON response that `request_tts_chunk`
inspects: the optional top-level `message` and the optional
`data.v_str` payload string. -/
structure TtsResponse where
  message : Option (List Char)
  v_str : Option (List Char)

/-- The errors `request_tts_chunk` can return from a
transport-successful response: `invalidCredential` is the string error
of line 141 ("Invalid TikTok Session ID or API error."),
`missingVStr` the one of line 149 ("Missing v_str in response"). -/
inductive ChunkError where
  | invalidCredential
  | missingVStr
deriving DecidableEq

/-- The distinguished application-level error message checked on
line 140; the character 39 is U+0027. -/
def couldNotLoadMsg : List Char :=
  "Couldn".toList ++ [Char.ofNat 39] ++ "t load speech. Try again.".toList

/-- Embeds the response handling of `request_tts_chunk`
(lines 139-151): the distinguished message is rejected first; then the
payload field is required. -/
def handle_response (r : TtsResponse) : Except ChunkError (List Char) :=
  match r.message with
  | some m =>
    if m = couldNotLoadMsg then Except.error ChunkError.invalidCredential
    else
      match r.v_str with
      | some v => Except.ok v
      | none => Except.error ChunkError.missingVStr
  | none =>
    match r.v_str with
    | some v => Except.ok v
    | none => Except.error ChunkError.missingVStr

/-- Embeds the per-task match in `process_tts` (lines 217-223): a
successful chunk becomes `Some data`, every chunk error — the
invalid-credential one included — becomes `None`. -/
def toResult : Except ChunkError (List Char) → Option (List Char)
  | Except.ok v => some v
  | Except.error _ => none

/-- The dispatcher as a function of the per-segment responses: each
response is handled, flattened to an optional payload, and the results
are reassembled. -/
def dispatch (rs : List TtsResponse) : Except TtsError (List Nat) :=
  assemble (rs.map (fun r => toResult (handle_response r)))

/-- `API_BASE_URL` (line 27). -/
def API_BASE_URL : List Char := "/media/api/text/speech/invoke/".toList

/-- Characters allowed after the first in a URL scheme
(RFC 3986, as enforced by the `url` crate). -/
def schemeChar (c : Char) : Bool :=
  c.isAlpha || c.isDigit || c = '+' || c = '-' || c = '.'

/-- Tail of the scheme test: scheme characters up to a `:`. -/
def schemeTail : List Char → Bool
  | [] => false
  | c :: rest => if c = ':' then true else schemeChar c && schemeTail rest

/-- Whether a URL string begins with a scheme (`alpha (alphanum|+|-|.)* :`);
`url::Url::parse` fails with `RelativeUrlWithoutBase` on any input
without one, since `generate_tts_url` supplies no base URL. -/
def hasScheme : List Char → Bool
  | [] => false
  | c :: rest => c.isAlpha && schemeTail rest

/-- Embeds `generate_tts_url` (lines 154-164).  `Url::parse` of a
scheme-less string fails, and the `.unwrap()` on that failure is a
panic, modelled as `none`.  The success branch (query construction,
modelled without percent-encoding) is unreachable because
`API_BASE_URL` is a relative path. -/
def generate_tts_url (text speaker : List Char) : Option (List Char) :=
  let sanitized := sanitize_text text
  if hasScheme API_BASE_URL then
    some (API_BASE_URL ++ "?text_speaker=".toList ++ speaker ++
      "&req_text=".toList ++ sanitized ++ "&speaker_map_type=0&aid=1233".toList)
  else none

/-! ### Basic lemmas about the segmenter helpers -/

theorem utf8Len_append (a b : List Char) : utf8Len (a ++ b) = utf8Len a + utf8Len b := by
  simp [utf8Len]

theorem utf8Len_nil : utf8Len [] = 0 := rfl

theorem nonWs_space : nonWs ' ' = false := rfl

theorem wordsAux_flatten (cs : List Char) :
    ∀ acc : List Char, (wordsAux cs acc).flatten = acc.reverse ++ cs.filter nonWs := by
  induction cs with
  | nil =>
    intro acc
    by_cases h : acc.isEmpty
    · simp [wordsAux, h, List.isEmpty_iff.mp h]
    · simp [wordsAux, h]
  | cons c cs ih =>
    intro acc
    cases hw : isWs c with
    | true =>
      by_cases h : acc.isEmpty
      · simp [wordsAux, hw, h, List.isEmpty_iff.mp h, ih, List.filter_cons, nonWs]
      · simp [wordsAux, hw, h, ih, List.filter_cons, nonWs]
    | false =>
      simp [wordsAux, hw, ih, List.filter_cons, nonWs, List.append_assoc]

theorem splitWs_flatten (u : List Char) : (splitWs u).flatten = u.filter nonWs :=
  by simpa using wordsAux_flatten u []

theorem wordsAux_wsFree (cs : List Char) :
    ∀ acc : List Char, acc.all nonWs = true → ∀ w ∈ wordsAux cs acc, wsFree w = true := by
  induction cs with
  | nil =>
    intro acc hacc w hw
    simp only [wordsAux] at hw
    split at hw
    · simp at hw
    · simp only [List.mem_singleton] at hw
      subst hw
      simpa [wsFree] using hacc
  | cons c cs ih =>
    intro acc hacc w hw
    simp only [wordsAux] at hw
    cases hc : isWs c with
    | true =>
      rw [hc] at hw
      simp only [if_true] at hw
      by_cases h : acc.isEmpty
      · rw [if_pos h] at hw
        exact ih [] rfl w hw
      · rw [if_neg h] at hw
        rcases List.mem_cons.mp hw with h1 | h1
        · subst h1; simpa [wsFree] using hacc
        · exact ih [] rfl w h1
    | false =>
      rw [hc] at hw
      simp only [Bool.false_eq_true, if_false] at hw
      refine ih (c :: acc) ?_ w hw
      simpa [nonWs, hc] using hacc

theorem splitWs_wsFree (u : List Char) : ∀ w ∈ splitWs u, wsFree w = true :=
  wordsAux_wsFree u [] rfl

theorem unitsAux_flatten (cs : List Char) :
    ∀ acc : List Char, (unitsAux cs acc).flatten = acc.reverse ++ cs := by
  induction cs with
  | nil =>
    intro acc
    by_cases h : acc.isEmpty
    · simp [unitsAux, h, List.isEmpty_iff.mp h]
    · simp [unitsAux, h]
  | cons c cs ih =>
    intro acc
    cases hb : isBoundary c with
    | true => simp [unitsAux, hb, ih, List.append_assoc]
    | false => simp [unitsAux, hb, ih]

theorem splitUnits_flatten (t : List Char) : (splitUnits t).flatten = t := by
  simpa using unitsAux_flatten t []

/-! ### Reassembly: decoding discipline (C1), partial failure (C2) -/

theorem map_some_any_isNone (ps : List (List Char)) :
    ((ps.map some).any fun r => r.isNone) = false := by
  induction ps with
  | nil => rfl
  | cons p ps ih => simp [ih]

theorem filterMap_id_map_some (ps : List (List Char)) :
    (ps.map some).filterMap id = ps := by
  induction ps with
  | nil => rfl
  | cons p ps ih => simp [ih]

/-- C1 (counterexample): in a run of two successful segments whose
encoded payloads are both `"AA=="`, independent decoding yields `[0]`
per segment, so the claimed output would be `[0] ++ [0]`; the code
instead decodes the concatenated string `"AA==AA=="`, which fails on
the mid-stream padding, so the returned buffer is not the
concatenation of the raw per-segment byte buffers. -/
theorem assemble_concatenates_encoded_cex :
    base64Decode ("AA==".toList) = some [0] ∧
    assemble [some ("AA==".toList), some ("AA==".toList)] =
      Except.error TtsError.decodeFailure ∧
    assemble [some ("AA==".toList), some ("AA==".toList)] ≠
      Except.ok ([0] ++ [0]) := by
  refine ⟨rfl, rfl, ?_⟩
  intro h
  rw [show assemble [some ("AA==".toList), some ("AA==".toList)] =
      Except.error TtsError.decodeFailure from rfl] at h
  exact Except.noConfusion h

/-- C1 (amended): in every run in which all segment calls succeed, the
dispatcher concatenates the text-safe encoded payload strings in
ascending index order and decodes the concatenation once at the end;
the audio buffer is the result of that single decode (so it fails with
a decode error when the concatenation is not decodable, rather than
decoding each segment independently first). -/
theorem assemble_decodes_concatenation (ps : List (List Char)) :
    assemble (ps.map some) =
      match base64Decode ps.flatten with
      | some bytes => Except.ok bytes
      | none => Except.error TtsError.decodeFailure := by
  unfold assemble
  rw [map_some_any_isNone, filterMap_id_map_some]
  rfl

/-- C2: whenever at least one of N ≥ 2 segment results lacks a payload,
reassembly returns the partial-failure error and no audio bytes. -/
theorem assemble_partialFailure_of_missing (results : List (Option (List Char)))
    (hn : 2 ≤ results.length) (hfail : none ∈ results) :
    assemble results = Except.error TtsError.partialFailure := by
  unfold assemble
  have h : results.any (fun r => r.isNone) = true :=
    List.any_eq_true.mpr ⟨none, hfail, rfl⟩
  rw [h]
  rfl

/-- Witness for C2 at the concrete result list `[none, some []]`. -/
theorem assemble_partialFailure_of_missing_witness :
    2 ≤ ([none, some []] : List (Option (List Char))).length ∧
    none ∈ ([none, some []] : List (Option (List Char))) ∧
    assemble [none, some []] = Except.error TtsError.partialFailure :=
  ⟨by decide, by decide, assemble_partialFailure_of_missing _ (by decide) (by decide)⟩

/-! ### Concrete segmenter behaviour (C5, C9 counterexample, C10 counterexample) -/

/-- C5 (counterexample): segmenting `"A. B. C."` with byte limit 5 does
not produce `["A. ", "B. ", "C."]`. -/
theorem split_text_example_cex :
    split_text ("A. B. C.".toList) 5 ≠
      ["A. ".toList, "B. ".toList, "C.".toList] := by decide

/-- C5 (amended): segmenting `"A. B. C."` with byte limit 5 produces
exactly `["A. B.", " C."]`: the units are `"A."`, `" B."`, `" C."`
(each carrying its leading space), `" B."` still fits exactly
(tie-break: append), and `" C."` forces one flush. -/
theorem split_text_example :
    split_text ("A. B. C.".toList) 5 = ["A. B.".toList, " C.".toList] := by decide

/-- C9 (counterexample): the pure-whitespace input `" "` does not
produce the empty segment sequence at the configured byte limit. -/
theorem split_text_whitespace_cex :
    split_text (" ".toList) BYTE_LIMIT ≠ ([] : List (List Char)) := by decide

/-- C10 (counterexample): the segment `"a+b"` of input `"a+b"` is not a
substring of the sanitized input `"aplusb"` (sanitization happens per
segment after splitting, not before); and the segment `"x y"` of input
`"x  y"` at limit 3 (re-joined from whitespace-split tokens with a
single space) is not a substring even of the original input. -/
theorem split_text_substring_cex :
    ("a+b".toList ∈ split_text ("a+b".toList) BYTE_LIMIT) ∧
    ¬ ("a+b".toList <:+: sanitize_text ("a+b".toList)) ∧
    ("x y".toList ∈ split_text ("x  y".toList) 3) ∧
    ¬ ("x y".toList <:+: "x  y".toList) := by decide

/-! ### Dry-run URL construction (C6) -/

/-- C6: `generate_tts_url` never returns a descriptor: `Url::parse` is
applied to the relative constant `API_BASE_URL`, which has no scheme,
so parsing fails and the `.unwrap()` panics on every input. -/
theorem generate_tts_url_always_none (text speaker : List Char) :
    generate_tts_url text speaker = none := rfl

/-! ### Credential error handling (C8) -/

/-- C8 (counterexample): a response carrying the distinguished
could-not-load-speech message is flattened to an absent payload
(a generic per-segment failure), and the whole two-segment operation
then reports `partialFailure` — indistinguishable at top level from a
response that simply lacks the payload field. -/
theorem dispatch_credential_cex :
    toResult (handle_response ⟨some couldNotLoadMsg, some ("AAAA".toList)⟩) = none ∧
    dispatch [⟨some couldNotLoadMsg, some ("AAAA".toList)⟩, ⟨none, some ("AAAA".toList)⟩] =
      Except.error TtsError.partialFailure ∧
    dispatch [⟨some couldNotLoadMsg, some ("AAAA".toList)⟩, ⟨none, some ("AAAA".toList)⟩] =
      dispatch [⟨none, none⟩, ⟨none, some ("AAAA".toList)⟩] :=
  ⟨rfl, rfl, rfl⟩

/-- C8 (amended): the distinguished message yields the distinguished
invalid-credential error from the per-segment request function, but the
dispatcher converts it — like every per-segment error — into an absent
payload, so any operation containing such a segment fails with
`partialFailure`; the invalid-credential error never reaches the
top-level caller. -/
theorem handle_response_credential (r : TtsResponse)
    (h : r.message = some couldNotLoadMsg) :
    handle_response r = Except.error ChunkError.invalidCredential ∧
    toResult (handle_response r) = none ∧
    ∀ rest, assemble (toResult (handle_response r) :: rest) =
      Except.error TtsError.partialFailure := by
  have h1 : handle_response r = Except.error ChunkError.invalidCredential := by
    unfold handle_response
    rw [h]
    simp
  refine ⟨h1, by rw [h1]; rfl, ?_⟩
  intro rest
  rw [h1]
  show assemble (none :: rest) = Except.error TtsError.partialFailure
  unfold assemble
  rw [List.any_cons]
  rfl

/-- Witness for C8 (amended) at a concrete credential-rejected response. -/
theorem handle_response_credential_witness :
    (TtsResponse.mk (some couldNotLoadMsg) none).message = some couldNotLoadMsg ∧
    handle_response ⟨some couldNotLoadMsg, none⟩ =
      Except.error ChunkError.invalidCredential ∧
    assemble (toResult (handle_response ⟨some couldNotLoadMsg, none⟩) :: [some ("AAAA".toList)]) =
      Except.error TtsError.partialFailure := by
  have h := handle_response_credential ⟨some couldNotLoadMsg, none⟩ rfl
  exact ⟨rfl, h.1, h.2.2 [some ("AAAA".toList)]⟩

/-! ### Byte-limit invariant of the segmenter (C3) -/

/-- A segment is admissible: within the byte limit, or a single
whitespace-free (indivisible) token. -/
def segOk (limit : Nat) (s : List Char) : Prop :=
  utf8Len s ≤ limit ∨ wsFree s = true

/-- Loop invariant of `split_text`: all flushed chunks are admissible,
the tracked byte counter agrees with the accumulator, and the
accumulator itself is admissible. -/
def stInv (limit : Nat) (st : SplitState) : Prop :=
  (∀ s ∈ st.merged, segOk limit s) ∧
  st.currentLen = utf8Len st.current ∧
  segOk limit st.current

theorem mem_flush {st : SplitState} {limit : Nat} {s : List Char}
    (hm : ∀ x ∈ st.merged, segOk limit x) (hc : segOk limit st.current)
    (hs : s ∈ st.merged ++ (if st.current.isEmpty then [] else [st.current])) :
    segOk limit s := by
  rcases List.mem_append.mp hs with h | h
  · exact hm s h
  · split at h
    · simp at h
    · rw [List.mem_singleton] at h
      subst h
      exact hc

theorem pushWord_inv (limit : Nat) (st : SplitState) (w : List Char)
    (hw : wsFree w = true) (h : stInv limit st) :
    stInv limit (pushWord limit st w) := by
  obtain ⟨hm, hl, hc⟩ := h
  unfold pushWord
  split
  · exact ⟨fun s hs => mem_flush hm hc hs, rfl, Or.inr hw⟩
  · next hfit =>
    split
    · exact ⟨hm, rfl, Or.inr hw⟩
    · have hsp : utf8Len [' '] = 1 := rfl
      refine ⟨hm, ?_, Or.inl ?_⟩
      · show st.currentLen + utf8Len w + 1 = utf8Len (st.current ++ [' '] ++ w)
        rw [utf8Len_append, utf8Len_append, hsp]
        omega
      · show utf8Len (st.current ++ [' '] ++ w) ≤ limit
        rw [utf8Len_append, utf8Len_append, hsp]
        omega

theorem foldWords_inv (limit : Nat) (ws : List (List Char)) (st : SplitState)
    (hws : ∀ w ∈ ws, wsFree w = true) (h : stInv limit st) :
    stInv limit (ws.foldl (pushWord limit) st) := by
  induction ws generalizing st with
  | nil => exact h
  | cons w ws ih =>
    exact ih _ (fun x hx => hws x (List.mem_cons_of_mem _ hx))
      (pushWord_inv limit st w (hws w (List.mem_cons_self _ _)) h)

theorem pushUnit_inv (limit : Nat) (st : SplitState) (u : List Char)
    (h : stInv limit st) : stInv limit (pushUnit limit st u) := by
  obtain ⟨hm, hl, hc⟩ := h
  unfold pushUnit
  split
  · exact foldWords_inv limit _ st (splitWs_wsFree u) ⟨hm, hl, hc⟩
  · next hfit =>
    split
    · refine ⟨fun s hs => mem_flush hm hc hs, rfl, Or.inl ?_⟩
      show utf8Len u ≤ limit
      omega
    · next happ =>
      refine ⟨hm, ?_, Or.inl ?_⟩
      · show st.currentLen + utf8Len u = utf8Len (st.current ++ u)
        rw [utf8Len_append]
        omega
      · show utf8Len (st.current ++ u) ≤ limit
        rw [utf8Len_append]
        omega

theorem foldUnits_inv (limit : Nat) (us : List (List Char)) (st : SplitState)
    (h : stInv limit st) : stInv limit (us.foldl (pushUnit limit) st) := by
  induction us generalizing st with
  | nil => exact h
  | cons u us ih => exact ih _ (pushUnit_inv limit st u h)

/-- C3: every emitted segment either fits the byte limit or is a single
whitespace-free token (which then exceeds the limit and is emitted
whole as its own oversized segment). -/
theorem split_text_byte_limit (t : List Char) (limit : Nat) :
    ∀ s ∈ split_text t limit, utf8Len s ≤ limit ∨ wsFree s = true := by
  intro s hs
  have h : stInv limit ((splitUnits t).foldl (pushUnit limit) ⟨[], [], 0⟩) :=
    foldUnits_inv limit (splitUnits t) ⟨[], [], 0⟩
      ⟨by simp, rfl, Or.inl (by simp [utf8Len])⟩
  obtain ⟨hm, _, hc⟩ := h
  exact mem_flush hm hc hs

/-- Witness for C3 at the oversized single-token input `"abcdefgh"`
with byte limit 5. -/
theorem split_text_byte_limit_witness :
    ("abcdefgh".toList ∈ split_text ("abcdefgh".toList) 5) ∧
    (utf8Len "abcdefgh".toList ≤ 5 ∨ wsFree "abcdefgh".toList = true) :=
  ⟨by decide, split_text_byte_limit ("abcdefgh".toList) 5 ("abcdefgh".toList) (by decide)⟩

/-! ### Coverage of the segmenter (C4) -/

theorem split_text_eq (t : List Char) (limit : Nat) :
    split_text t limit =
      ((splitUnits t).foldl (pushUnit limit) ⟨[], [], 0⟩).merged ++
        (if ((splitUnits t).foldl (pushUnit limit) ⟨[], [], 0⟩).current.isEmpty then []
         else [((splitUnits t).foldl (pushUnit limit) ⟨[], [], 0⟩).current]) := rfl

theorem pushWord_out (limit : Nat) (st : SplitState) (w : List Char) :
    (outFlush (pushWord limit st w)).filter nonWs =
      (outFlush st).filter nonWs ++ w.filter nonWs := by
  unfold pushWord
  split
  · by_cases h : st.current.isEmpty
    · simp [outFlush, h, List.isEmpty_iff.mp h, List.filter_append]
    · simp [outFlush, h, List.filter_append, List.append_assoc]
  · split
    · next h => simp [outFlush, List.isEmpty_iff.mp h, List.filter_append]
    · simp [outFlush, List.filter_append, List.filter_cons, nonWs_space,
        List.append_assoc]

theorem foldWords_out (limit : Nat) (ws : List (List Char)) (st : SplitState) :
    (outFlush (ws.foldl (pushWord limit) st)).filter nonWs =
      (outFlush st).filter nonWs ++ (ws.flatten).filter nonWs := by
  induction ws generalizing st with
  | nil => simp
  | cons w ws ih =>
    rw [List.foldl_cons, ih, pushWord_out, List.flatten_cons, List.filter_append,
      List.append_assoc]

theorem pushUnit_out (limit : Nat) (st : SplitState) (u : List Char) :
    (outFlush (pushUnit limit st u)).filter nonWs =
      (outFlush st).filter nonWs ++ u.filter nonWs := by
  unfold pushUnit
  split
  · rw [foldWords_out, splitWs_flatten, List.filter_filter]
    simp [Bool.and_self]
  · split
    · by_cases h : st.current.isEmpty
      · simp [outFlush, h, List.isEmpty_iff.mp h, List.filter_append]
      · simp [outFlush, h, List.filter_append, List.append_assoc]
    · simp [outFlush, List.filter_append, List.append_assoc]

theorem foldUnits_out (limit : Nat) (us : List (List Char)) (st : SplitState) :
    (outFlush (us.foldl (pushUnit limit) st)).filter nonWs =
      (outFlush st).filter nonWs ++ (us.flatten).filter nonWs := by
  induction us generalizing st with
  | nil => simp
  | cons u us ih =>
    rw [List.foldl_cons, ih, pushUnit_out, List.flatten_cons, List.filter_append,
      List.append_assoc]

theorem split_text_flatten (t : List Char) (limit : Nat) :
    (split_text t limit).flatten =
      outFlush ((splitUnits t).foldl (pushUnit limit) ⟨[], [], 0⟩) := by
  rw [split_text_eq]
  by_cases h : ((splitUnits t).foldl (pushUnit limit) ⟨[], [], 0⟩).current.isEmpty
  · simp [outFlush, h, List.isEmpty_iff.mp h]
  · simp [outFlush, h]

/-- C4: for every input text and positive byte limit, the concatenation
of all emitted segments reproduces the non-whitespace characters of the
original text in their original order (the whitespace — the segments
own whitespace together with the single join spaces inserted by the
word loop — being ignored on both sides). -/
theorem split_text_coverage (t : List Char) (limit : Nat) (hpos : 0 < limit) :
    ((split_text t limit).flatten).filter nonWs = t.filter nonWs := by
  rw [split_text_flatten, foldUnits_out, splitUnits_flatten]
  simp [outFlush]

/-- Witness for C4 at input `"A. B. C."` with byte limit 5. -/
theorem split_text_coverage_witness :
    0 < 5 ∧
    ((split_text ("A. B. C.".toList) 5).flatten).filter nonWs =
      ("A. B. C.".toList).filter nonWs :=
  ⟨by decide, split_text_coverage ("A. B. C.".toList) 5 (by decide)⟩

/-! ### Whitespace-only inputs (C9) -/

theorem foldUnits_small (limit : Nat) (us : List (List Char)) :
    ∀ (done : List Char) (n : Nat), n = utf8Len done →
      utf8Len (done ++ us.flatten) ≤ limit →
      us.foldl (pushUnit limit) ⟨[], done, n⟩ =
        ⟨[], done ++ us.flatten, utf8Len (done ++ us.flatten)⟩ := by
  induction us with
  | nil =>
    intro done n hn _
    simp [hn]
  | cons u us ih =>
    intro done n hn h
    subst hn
    have hlen : utf8Len done + utf8Len u + utf8Len us.flatten ≤ limit := by
      rw [List.flatten_cons, utf8Len_append, utf8Len_append] at h
      omega
    have hp : pushUnit limit ⟨[], done, utf8Len done⟩ u =
        ⟨[], done ++ u, utf8Len (done ++ u)⟩ := by
      unfold pushUnit
      split
      · next hcon => exact absurd hcon (by omega)
      · split
        · next hcon =>
          have hcon2 : utf8Len done + utf8Len u > limit := hcon
          omega
        · rw [utf8Len_append]
    rw [List.foldl_cons, hp,
      ih (done ++ u) (utf8Len (done ++ u)) rfl
        (by rw [List.append_assoc, ← List.flatten_cons]; exact h)]
    simp [List.flatten_cons, List.append_assoc]

/-- C9 (amended): a nonempty whitespace-only input whose byte length is
within the limit is returned as one segment equal to the whole input —
not as the empty sequence.  (Over-limit whitespace-only inputs are out
of scope here: their single over-limit unit splits into no words.) -/
theorem split_text_whitespace_single (t : List Char) (limit : Nat)
    (hws : ∀ c ∈ t, isWs c = true) (hne : t ≠ []) (hlen : utf8Len t ≤ limit) :
    split_text t limit = [t] := by
  have hf := foldUnits_small limit (splitUnits t) [] 0 rfl
    (by rw [List.nil_append, splitUnits_flatten]; exact hlen)
  rw [List.nil_append, splitUnits_flatten] at hf
  rw [split_text_eq, hf]
  have : t.isEmpty = false := by
    cases t with
    | nil => exact absurd rfl hne
    | cons c cs => rfl
  rw [this]
  rfl

/-- Witness for C9 (amended) at the whitespace-only input `" "` with
the configured byte limit. -/
theorem split_text_whitespace_single_witness :
    (∀ c ∈ " ".toList, isWs c = true) ∧ " ".toList ≠ ([] : List Char) ∧
    utf8Len (" ".toList) ≤ BYTE_LIMIT ∧
    split_text (" ".toList) BYTE_LIMIT = [" ".toList] :=
  ⟨by decide, by decide, by decide,
   split_text_whitespace_single (" ".toList) BYTE_LIMIT (by decide) (by decide)
     (by decide)⟩

/-! ### Non-emptiness and substring structure of segments (C10) -/

theorem pushWord_ne (limit : Nat) (st : SplitState) (w : List Char)
    (h : ∀ s ∈ st.merged, s ≠ []) :
    ∀ s ∈ (pushWord limit st w).merged, s ≠ [] := by
  unfold pushWord
  split
  · intro s hs
    rcases List.mem_append.mp hs with h1 | h1
    · exact h s h1
    · split at h1
      · simp at h1
      · next hemp =>
        rw [List.mem_singleton] at h1
        subst h1
        exact fun hc => hemp (by rw [hc]; rfl)
  · split
    · exact h
    · exact h

theorem foldWords_ne (limit : Nat) (ws : List (List Char)) (st : SplitState)
    (h : ∀ s ∈ st.merged, s ≠ []) :
    ∀ s ∈ (ws.foldl (pushWord limit) st).merged, s ≠ [] := by
  induction ws generalizing st with
  | nil => exact h
  | cons w ws ih => exact ih _ (pushWord_ne limit st w h)

theorem pushUnit_ne (limit : Nat) (st : SplitState) (u : List Char)
    (h : ∀ s ∈ st.merged, s ≠ []) :
    ∀ s ∈ (pushUnit limit st u).merged, s ≠ [] := by
  unfold pushUnit
  split
  · exact foldWords_ne limit _ st h
  · split
    · intro s hs
      rcases List.mem_append.mp hs with h1 | h1
      · exact h s h1
      · split at h1
        · simp at h1
        · next hemp =>
          rw [List.mem_singleton] at h1
          subst h1
          exact fun hc => hemp (by rw [hc]; rfl)
    · exact h

theorem foldUnits_ne (limit : Nat) (us : List (List Char)) (st : SplitState)
    (h : ∀ s ∈ st.merged, s ≠ []) :
    ∀ s ∈ (us.foldl (pushUnit limit) st).merged, s ≠ [] := by
  induction us generalizing st with
  | nil => exact h
  | cons u us ih => exact ih _ (pushUnit_ne limit st u h)

theorem split_text_ne (t : List Char) (limit : Nat) :
    ∀ s ∈ split_text t limit, s ≠ [] := by
  intro s hs
  rw [split_text_eq] at hs
  rcases List.mem_append.mp hs with h1 | h1
  · exact foldUnits_ne limit (splitUnits t) ⟨[], [], 0⟩ (by simp) s h1
  · split at h1
    · simp at h1
    · next hemp =>
      rw [List.mem_singleton] at h1
      subst h1
      exact fun hc => hemp (by rw [hc]; rfl)

theorem suffix_append_congr {c d u : List Char} (h : c <:+ d) :
    c ++ u <:+ d ++ u := by
  obtain ⟨p, hp⟩ := h
  exact ⟨p, by rw [← List.append_assoc, hp]⟩

theorem infix_of_infix_left {s d : List Char} (u : List Char) (h : s <:+: d) :
    s <:+: d ++ u := by
  obtain ⟨p, q, hp⟩ := h
  exact ⟨p, q ++ u, by rw [← hp]; simp [List.append_assoc]⟩

theorem foldUnits_infix (limit : Nat) (us : List (List Char)) :
    ∀ (st : SplitState) (done : List Char),
      (∀ u ∈ us, utf8Len u ≤ limit) →
      (∀ s ∈ st.merged, s <:+: done) →
      st.current <:+ done →
      (∀ s ∈ (us.foldl (pushUnit limit) st).merged, s <:+: done ++ us.flatten) ∧
      (us.foldl (pushUnit limit) st).current <:+ done ++ us.flatten := by
  induction us with
  | nil =>
    intro st done _ hm hc
    simp only [List.foldl_nil, List.flatten_nil, List.append_nil]
    exact ⟨hm, hc⟩
  | cons u us ih =>
    intro st done hus hm hc
    rw [List.foldl_cons]
    have hu : utf8Len u ≤ limit := hus u (List.mem_cons_self _ _)
    have step : (∀ s ∈ (pushUnit limit st u).merged, s <:+: done ++ u) ∧
        (pushUnit limit st u).current <:+ done ++ u := by
      unfold pushUnit
      rw [if_neg (by omega)]
      split
      · constructor
        · intro s hs
          rcases List.mem_append.mp hs with h1 | h1
          · exact infix_of_infix_left _ (hm s h1)
          · split at h1
            · simp at h1
            · rw [List.mem_singleton] at h1
              subst h1
              exact infix_of_infix_left _ hc.isInfix
        · exact List.suffix_append done u
      · constructor
        · intro s hs
          exact infix_of_infix_left _ (hm s hs)
        · exact suffix_append_congr hc
    have hrest := ih (pushUnit limit st u) (done ++ u)
      (fun x hx => hus x (List.mem_cons_of_mem _ hx)) step.1 step.2
    rw [List.flatten_cons, ← List.append_assoc]
    exact hrest

/-- C10 (amended): every emitted segment is a non-empty string; and
whenever every natural unit of the input fits within the byte limit (so
the space-re-joining word loop is never entered), every emitted segment
is a contiguous substring of the original — not the sanitized — input
text. -/
theorem split_text_nonempty_substring (t : List Char) (limit : Nat) :
    (∀ s ∈ split_text t limit, s ≠ []) ∧
    ((∀ u ∈ splitUnits t, utf8Len u ≤ limit) →
      ∀ s ∈ split_text t limit, s <:+: t) := by
  refine ⟨split_text_ne t limit, ?_⟩
  intro hu s hs
  have h := foldUnits_infix limit (splitUnits t) ⟨[], [], 0⟩ [] hu (by simp)
    List.nil_suffix
  rw [List.nil_append, splitUnits_flatten] at h
  rw [split_text_eq] at hs
  rcases List.mem_append.mp hs with h1 | h1
  · exact h.1 s h1
  · split at h1
    · simp at h1
    · rw [List.mem_singleton] at h1
      subst h1
      exact h.2.isInfix

/-- Witness for C10 (amended) at input `"ab."` with byte limit 300. -/
theorem split_text_nonempty_substring_witness :
    "ab.".toList ≠ ([] : List Char) ∧ "ab.".toList <:+: "ab.".toList :=
  ⟨(split_text_nonempty_substring ("ab.".toList) 300).1 ("ab.".toList) (by decide),
   (split_text_nonempty_substring ("ab.".toList) 300).2 (by decide)
     ("ab.".toList) (by decide)⟩

/-! ### Completion-order independence of the collection loop (C7) -/

theorem setFold_length (l : List (Nat × Option (List Char))) :
    ∀ acc : List (Option (List Char)),
      (l.foldl (fun a p => a.set p.1 p.2) acc).length = acc.length := by
  induction l with
  | nil => intro acc; rfl
  | cons p l ih =>
    intro acc
    rw [List.foldl_cons, ih, List.length_set]

theorem collect_length (n : Nat) (l : List (Nat × Option (List Char))) :
    (collectResults n l).length = n := by
  unfold collectResults
  rw [setFold_length, List.length_replicate]

theorem setFold_getElem_not_mem (l : List (Nat × Option (List Char))) :
    ∀ (acc : List (Option (List Char))) (i : Nat),
      (∀ p ∈ l, p.1 ≠ i) →
      (l.foldl (fun a p => a.set p.1 p.2) acc)[i]? = acc[i]? := by
  induction l with
  | nil => intro acc i _; rfl
  | cons p l ih =>
    intro acc i hne
    rw [List.foldl_cons, ih _ i (fun q hq => hne q (List.mem_cons_of_mem _ hq)),
      List.getElem?_set_ne (hne p (List.mem_cons_self _ _))]

theorem setFold_getElem_mem (l : List (Nat × Option (List Char))) :
    ∀ (acc : List (Option (List Char))) (i : Nat) (v : Option (List Char)),
      (l.map Prod.fst).Nodup → (i, v) ∈ l → i < acc.length →
      (l.foldl (fun a p => a.set p.1 p.2) acc)[i]? = some v := by
  induction l with
  | nil =>
    intro acc i v _ hmem _
    exact absurd hmem (List.not_mem_nil _)
  | cons p l ih =>
    intro acc i v hnd hmem hlt
    rw [List.map_cons] at hnd
    have hnd' := List.nodup_cons.mp hnd
    rw [List.foldl_cons]
    rcases List.mem_cons.mp hmem with h1 | h1
    · obtain ⟨j, w⟩ := p
      have hij : j = i := congrArg Prod.fst h1.symm
      have hvw : w = v := congrArg Prod.snd h1.symm
      subst hij
      subst hvw
      have hnot : ∀ q ∈ l, q.1 ≠ j := by
        intro q hq hqj
        have hmap : q.1 ∈ l.map Prod.fst := List.mem_map_of_mem Prod.fst hq
        rw [hqj] at hmap
        exact hnd'.1 hmap
      rw [setFold_getElem_not_mem l _ j hnot]
      exact List.getElem?_set_eq_of_lt w hlt
    · exact ih (acc.set p.1 p.2) i v hnd'.2 h1 (by rw [List.length_set]; exact hlt)

theorem collect_complete (ps : List (List Char)) (l : List (Nat × Option (List Char)))
    (h1 : (l.map Prod.fst).Nodup)
    (h2 : ∀ i, i < ps.length → (i, ps[i]?) ∈ l) :
    collectResults ps.length l = ps.map some := by
  apply List.ext_getElem?
  intro n
  by_cases hn : n < ps.length
  · rw [collectResults, setFold_getElem_mem l _ n (ps[n]?) h1 (h2 n hn)
      (by rw [List.length_replicate]; exact hn)]
    rw [List.getElem?_map, List.getElem?_eq_getElem hn]
    rfl
  · have hle : ps.length ≤ n := Nat.le_of_not_lt hn
    rw [List.getElem?_eq_none (by rw [collect_length]; exact hle),
      List.getElem?_eq_none (by rw [List.length_map]; exact hle)]

theorem enumSome_fst (ps : List (List Char)) :
    (enumSome ps).map Prod.fst = List.range ps.length := by
  unfold enumSome
  rw [List.map_map]
  exact List.map_id _

theorem enumSome_mem (ps : List (List Char)) (i : Nat) (h : i < ps.length) :
    (i, ps[i]?) ∈ enumSome ps :=
  List.mem_map.mpr ⟨i, List.mem_range.mpr h, rfl⟩

theorem collect_enumSome (ps : List (List Char)) :
    collectResults ps.length (enumSome ps) = ps.map some :=
  collect_complete ps (enumSome ps)
    (by rw [enumSome_fst]; exact List.nodup_range _)
    (fun i h => enumSome_mem ps i h)

theorem collect_enumSome_reverse (ps : List (List Char)) :
    collectResults ps.length ((enumSome ps).reverse) = ps.map some :=
  collect_complete ps ((enumSome ps).reverse)
    (by
      rw [List.map_reverse, enumSome_fst]
      exact List.nodup_reverse.mpr (List.nodup_range _))
    (fun i h => List.mem_reverse.mpr (enumSome_mem ps i h))

/-- C7 (amended): for every sequence of segments in which all remote
calls succeed, the dispatcher output is independent of completion
order: completions arriving in reverse index order produce exactly the
output of ascending-order completions, namely the single decode of the
ascending-index concatenation of the encoded payload strings (not of
independently decoded byte buffers, see C1). -/
theorem processResults_order_independent (ps : List (List Char)) :
    processResults ps.length ((enumSome ps).reverse) =
      processResults ps.length (enumSome ps) ∧
    processResults ps.length (enumSome ps) = assemble (ps.map some) := by
  unfold processResults
  rw [collect_enumSome, collect_enumSome_reverse]
  exact ⟨rfl, rfl⟩

/-- C7 (counterexample): two successful segments with encoded payloads
`"AA=="` completing in reverse index order: every call succeeded, and
independent per-segment decoding would give `[0] ++ [0]`, but the
pipeline returns a decode error, so the reassembled buffer does not
equal the ascending concatenation of decoded per-segment payloads. -/
theorem processResults_reverse_cex :
    processResults 2 ((enumSome ["AA==".toList, "AA==".toList]).reverse) =
      Except.error TtsError.decodeFailure ∧
    processResults 2 ((enumSome ["AA==".toList, "AA==".toList]).reverse) ≠
      Except.ok ([0] ++ [0]) := by
  refine ⟨rfl, ?_⟩
  intro h
  rw [show processResults 2 ((enumSome ["AA==".toList, "AA==".toList]).reverse) =
      Except.error TtsError.decodeFailure from rfl] at h
  exact Except.noConfusion h

end Tktts
